import Mathlib

/-!
# Verification of the interaction-graph analytics engine

Shallow embedding of `frontend/src/utils/graphEngine.ts` (class `InteractionGraph`).
JavaScript `Map`s are modelled as association lists in insertion order:
`Map.set` updates the first matching entry in place or appends, `Map.get`
returns the first matching value (`none` models `undefined`), `Map.delete`
removes the first matching entry.  Machine numbers that hold counts are
modelled as `Nat`, metric values as `ℚ`.
-/

namespace GraphEngine

/-- JS `Map.get k` / object index: first value stored under `k`, `none` for absent. -/
def alookup {κ β : Type} [DecidableEq κ] : List (κ × β) → κ → Option β
  | [], _ => none
  | p :: rest, k => if p.1 = k then some p.2 else alookup rest k

/-- JS `Map.set k v`: overwrite the first entry with key `k` in place, else append. -/
def aset {κ β : Type} [DecidableEq κ] : List (κ × β) → κ → β → List (κ × β)
  | [], k, v => [(k, v)]
  | p :: rest, k, v => if p.1 = k then (k, v) :: rest else p :: aset rest k v

/-- JS `Map.delete k`: drop the first entry with key `k`. -/
def aerase {κ β : Type} [DecidableEq κ] : List (κ × β) → κ → List (κ × β)
  | [], _ => []
  | p :: rest, k => if p.1 = k then rest else p :: aerase rest k

/-- In-place mutation of the value stored under `k` (JS `m.get(k)!.field = ...`). -/
def aupdate {κ β : Type} [DecidableEq κ] : List (κ × β) → κ → (β → β) → List (κ × β)
  | [], _, _ => []
  | p :: rest, k, f => if p.1 = k then (p.1, f p.2) :: rest else p :: aupdate rest k f

/-- JS `Set` built by repeated `add`: deduplicate keeping first occurrences. -/
def dedupFirstSeen {α : Type} [DecidableEq α] : List α → List α
  | [] => []
  | x :: rest => x :: (dedupFirstSeen rest).filter (fun y => y ≠ x)

/-- `KeyNode` from `types/index.ts`: `position`/`radius` are display-only. -/
structure KeyNode where
  id : String
  label : String
  color : String
  position : ℚ × ℚ
  radius : ℚ
  selectionCount : Nat
  lastSelected : Option Nat
deriving Repr, DecidableEq

/-- `GraphEdge` from `types/index.ts`; `fromId`/`toId` embed the `from`/`to` fields. -/
structure GraphEdge where
  fromId : String
  toId : String
  weight : Nat
  timestamp : Nat
deriving Repr, DecidableEq

/-- The mutable state of class `InteractionGraph`. -/
structure InteractionGraph where
  nodes : List (String × KeyNode)
  adjacency : List (String × List (String × Nat))
  edges : List GraphEdge
  transitionSequence : List String
deriving Repr, DecidableEq

/-- The constructor: node map from `initialNodes`, one empty adjacency row per node. -/
def mkGraph (initialNodes : List KeyNode) : InteractionGraph :=
  { nodes := initialNodes.foldl (fun m node => aset m node.id node) []
  , adjacency := initialNodes.foldl (fun m node => aset m node.id []) []
  , edges := []
  , transitionSequence := [] }

/-- `edges.find(e => e.from === from && e.to === to)` followed by in-place
`weight++`/timestamp bump on the record found, else `edges.push(...weight 1...)`. -/
def bumpEdges : List GraphEdge → String → String → Nat → List GraphEdge
  | [], f, t, now => [⟨f, t, 1, now⟩]
  | e :: es, f, t, now =>
    if e.fromId = f ∧ e.toId = t then
      { e with weight := e.weight + 1, timestamp := now } :: es
    else
      e :: bumpEdges es f t now

/-- `addEdge(from, to)`; `now` stands for the ambient `Date.now()` clock. -/
def addEdge (g : InteractionGraph) (f t : String) (now : Nat) : InteractionGraph :=
  if (alookup g.nodes f).isSome ∧ (alookup g.nodes t).isSome then
    let fromAdj := (alookup g.adjacency f).getD []
    let currentWeight := (alookup fromAdj t).getD 0
    { nodes := aupdate g.nodes t (fun nd =>
        { nd with selectionCount := nd.selectionCount + 1, lastSelected := some now })
    , adjacency := aset g.adjacency f (aset fromAdj t (currentWeight + 1))
    , edges := bumpEdges g.edges f t now
    , transitionSequence := g.transitionSequence ++ [t] }
  else g

/-- `reset()`: clear edges/sequence, rebuild empty adjacency rows, zero the counters. -/
def reset (g : InteractionGraph) : InteractionGraph :=
  { nodes := g.nodes.map (fun p =>
      (p.1, { p.2 with selectionCount := 0, lastSelected := none }))
  , adjacency := g.nodes.foldl (fun m p => aset m p.1 []) []
  , edges := []
  , transitionSequence := [] }

/-- `getInDegree(nodeId)`: total weight of entries for `nodeId` across all rows. -/
def getInDegree (g : InteractionGraph) (nodeId : String) : Nat :=
  g.adjacency.foldl (fun acc p =>
    match alookup p.2 nodeId with
    | some w => acc + w
    | none => acc) 0

/-- `getOutDegree(nodeId)`: total weight of the row of `nodeId`, 0 if the row is absent. -/
def getOutDegree (g : InteractionGraph) (nodeId : String) : Nat :=
  match alookup g.adjacency nodeId with
  | none => 0
  | some row => row.foldl (fun acc p => acc + p.2) 0

/-- The queue loop of the private `bfs` method.  `fuel` bounds the number of
dequeues; every node enters the queue at most once (its distance flips from
`-1` to nonnegative), so `nodes.length + 1` dequeues suffice.  A neighbour key
absent from `distances` gives `undefined < 0`, i.e. `false`, in JS: modelled by
the `none` branch. -/
def bfsLoop (adj : List (String × List (String × Nat))) :
    Nat → List String → List (String × Int) → List (String × Int)
  | 0, _, distances => distances
  | _ + 1, [], distances => distances
  | fuel + 1, current :: queue, distances =>
    let currentDistance := (alookup distances current).getD 0
    let neighbors := (alookup adj current).getD []
    let st := neighbors.foldl
      (fun (st : List String × List (String × Int)) p =>
        match alookup st.2 p.1 with
        | some d =>
          if d < 0 then (st.1 ++ [p.1], aset st.2 p.1 (currentDistance + 1)) else st
        | none => st)
      (queue, distances)
    bfsLoop adj fuel st.1 st.2

/-- `bfs(source)`: distances `-1` for every node, then `source ↦ 0`, then the queue loop. -/
def bfs (g : InteractionGraph) (source : String) : List (String × Int) :=
  bfsLoop g.adjacency (g.nodes.length + 1) [source]
    (aset (g.nodes.map (fun p => (p.1, (-1 : Int)))) source 0)

/-- `calculateDegreeCentrality()`. -/
def calculateDegreeCentrality (g : InteractionGraph) : List (String × ℚ) :=
  let n := g.nodes.length
  if n ≤ 1 then []
  else g.nodes.map (fun p =>
    (p.1, ((getInDegree g p.1 + getOutDegree g p.1 : Nat) : ℚ) / (2 * ((n : ℚ) - 1))))

/-- Working state of one Brandes source traversal. -/
structure BrandesState where
  stack : List String
  predecessors : List (String × List String)
  sigma : List (String × ℚ)
  distance : List (String × Int)
  queue : List String

/-- The BFS phase of Brandes' algorithm for one source: dequeue `v`, push it on
the stack, and for each out-neighbour `w` run the two conditionals of the
source in order (discovery, then shortest-path counting).  Comparisons against
an absent `distance` entry model JS `undefined` comparisons (always false). -/
def brandesVisit (adj : List (String × List (String × Nat))) :
    Nat → BrandesState → BrandesState
  | 0, st => st
  | fuel + 1, st =>
    match st.queue with
    | [] => st
    | v :: queue' =>
      let dv := (alookup st.distance v).getD 0
      let neighbors := (alookup adj v).getD []
      let st' := neighbors.foldl
        (fun (s : BrandesState) p =>
          let w := p.1
          let s :=
            match alookup s.distance w with
            | some d =>
              if d < 0 then
                { s with queue := s.queue ++ [w], distance := aset s.distance w (dv + 1) }
              else s
            | none => s
          match alookup s.distance w with
          | some d =>
            if d = dv + 1 then
              { s with
                sigma := aset s.sigma w ((alookup s.sigma w).getD 0 + (alookup s.sigma v).getD 0)
                predecessors :=
                  aset s.predecessors w ((alookup s.predecessors w).getD [] ++ [v]) }
            else s
          | none => s)
        { st with stack := v :: st.stack, queue := queue' }
      brandesVisit adj fuel st'

/-- The dependency-accumulation phase of Brandes' algorithm: pop the stack,
fold the `delta` update over each popped node's predecessor list, and add
`delta` into the running centrality for non-source nodes. -/
def brandesAccum (source : String) (preds : List (String × List String))
    (sigma : List (String × ℚ)) :
    List String → List (String × ℚ) → List (String × ℚ) → List (String × ℚ)
  | [], _, centrality => centrality
  | w :: stack', delta, centrality =>
    let delta' := ((alookup preds w).getD []).foldl
      (fun d v =>
        let factor :=
          ((alookup sigma v).getD 0 / (alookup sigma w).getD 0) * (1 + (alookup d w).getD 0)
        aset d v ((alookup d v).getD 0 + factor))
      delta
    let centrality' :=
      if w ≠ source then
        aset centrality w ((alookup centrality w).getD 0 + (alookup delta' w).getD 0)
      else centrality
    brandesAccum source preds sigma stack' delta' centrality'

/-- `calculateBetweennessCentrality()`: Brandes per source, then the
`1/((n-1)(n-2))` normalization for `n > 2`, factor 1 otherwise. -/
def calculateBetweennessCentrality (g : InteractionGraph) : List (String × ℚ) :=
  let centrality := g.nodes.foldl
    (fun centrality p =>
      let source := p.1
      let st0 : BrandesState :=
        { stack := []
        , predecessors := g.nodes.map (fun q => (q.1, []))
        , sigma := aset (g.nodes.map (fun q => (q.1, (0 : ℚ)))) source 1
        , distance := aset (g.nodes.map (fun q => (q.1, (-1 : Int)))) source 0
        , queue := [source] }
      let st := brandesVisit g.adjacency (g.nodes.length + 1) st0
      brandesAccum source st.predecessors st.sigma st.stack
        (g.nodes.map (fun q => (q.1, (0 : ℚ)))) centrality)
    (g.nodes.map (fun p => (p.1, (0 : ℚ))))
  let n := g.nodes.length
  let normFactor : ℚ := if n > 2 then 1 / (((n : ℚ) - 1) * ((n : ℚ) - 2)) else 1
  centrality.map (fun p => (p.1, p.2 * normFactor))

/-- `calculateClosenessCentrality()`: per-source BFS, `reachable/totalDistance`,
scaled by `reachable/(n-1)` when `n > 1`. -/
def calculateClosenessCentrality (g : InteractionGraph) : List (String × ℚ) :=
  let n := g.nodes.length
  g.nodes.map (fun p =>
    let distances := bfs g p.1
    let tr := distances.foldl
      (fun (tr : Int × Nat) q =>
        if q.1 ≠ p.1 ∧ q.2 ≥ 0 then (tr.1 + q.2, tr.2 + 1) else tr)
      (0, 0)
    let base : ℚ := if tr.2 > 0 then (tr.2 : ℚ) / (tr.1 : ℚ) else 0
    (p.1, if n > 1 then base * ((tr.2 : ℚ) / ((n : ℚ) - 1)) else base))

/-- `iterations`-fold application of a step function (the fixed-count loops of
the eigenvector and PageRank methods). -/
def iterateSteps {α : Type} (f : α → α) : Nat → α → α
  | 0, x => x
  | k + 1, x => iterateSteps f k (f x)

/-- One power iteration of `calculateEigenvectorCentrality`.  `sq` models
`Math.sqrt`; `norm = Math.sqrt(sum) || 1` falls back to 1 when the root is 0.
The source recovers each in-neighbour row's key by reference equality over
`adjacency.entries()`, which for distinct row objects is the row's own key;
that recovery is modelled directly. -/
def eigenvectorStep (g : InteractionGraph) (sq : ℚ → ℚ)
    (centrality : List (String × ℚ)) : List (String × ℚ) :=
  let newCentrality := g.nodes.map (fun p =>
    (p.1, g.adjacency.foldl
      (fun score row =>
        match alookup row.2 p.1 with
        | some w => score + ((alookup centrality row.1).getD 0) * w
        | none => score)
      (0 : ℚ)))
  let sum := newCentrality.foldl (fun s p => s + p.2 * p.2) (0 : ℚ)
  let norm := if sq sum = 0 then 1 else sq sum
  newCentrality.map (fun p => (p.1, p.2 / norm))

/-- `calculateEigenvectorCentrality(iterations = 100)` with `sq` for `Math.sqrt`. -/
def calculateEigenvectorCentrality (g : InteractionGraph) (sq : ℚ → ℚ)
    (iterations : Nat := 100) : List (String × ℚ) :=
  if g.nodes.length = 0 then []
  else
    iterateSteps (eigenvectorStep g sq) iterations
      (g.nodes.map (fun p => (p.1, 1 / (g.nodes.length : ℚ))))

/-- One iteration of `calculatePageRank`: dangling sources (out-degree 0)
contribute nothing. -/
def pageRankStep (g : InteractionGraph) (damping : ℚ)
    (pageRank : List (String × ℚ)) : List (String × ℚ) :=
  g.nodes.map (fun p =>
    let incomingRank := g.adjacency.foldl
      (fun acc row =>
        if (alookup row.2 p.1).isSome then
          let outDegree := getOutDegree g row.1
          if outDegree > 0 then acc + ((alookup pageRank row.1).getD 0) / (outDegree : ℚ)
          else acc
        else acc)
      (0 : ℚ)
    (p.1, (1 - damping) / (g.nodes.length : ℚ) + damping * incomingRank))

/-- `calculatePageRank(damping = 0.85, iterations = 100)`. -/
def calculatePageRank (g : InteractionGraph) (damping : ℚ := 85 / 100)
    (iterations : Nat := 100) : List (String × ℚ) :=
  if g.nodes.length = 0 then []
  else
    iterateSteps (pageRankStep g damping) iterations
      (g.nodes.map (fun p => (p.1, 1 / (g.nodes.length : ℚ))))

/-- `calculateDensity()`. -/
def calculateDensity (g : InteractionGraph) : ℚ :=
  let n := g.nodes.length
  if n ≤ 1 then 0 else (g.edges.length : ℚ) / ((n : ℚ) * ((n : ℚ) - 1))

/-- `calculateDiameter()`: max finite BFS distance over ordered pairs, `none`
when no distinct pair is reachable. -/
def calculateDiameter (g : InteractionGraph) : Option Int :=
  let hm := g.nodes.foldl
    (fun (hm : Bool × Int) p =>
      (bfs g p.1).foldl
        (fun hm q => if p.1 ≠ q.1 ∧ q.2 ≥ 0 then (true, max hm.2 q.2) else hm)
        hm)
    (false, 0)
  if hm.1 then some hm.2 else none

/-- `calculateAveragePathLength()`. -/
def calculateAveragePathLength (g : InteractionGraph) : Option ℚ :=
  let tc := g.nodes.foldl
    (fun (tc : Int × Nat) p =>
      (bfs g p.1).foldl
        (fun tc q => if p.1 ≠ q.1 ∧ q.2 ≥ 0 then (tc.1 + q.2, tc.2 + 1) else tc)
        tc)
    (0, 0)
  if tc.2 > 0 then some ((tc.1 : ℚ) / (tc.2 : ℚ)) else none

/-- `adjacency.get(ni)?.has(nj) || adjacency.get(nj)?.has(ni)`. -/
def hasEdgeEither (adj : List (String × List (String × Nat))) (ni nj : String) : Bool :=
  (match alookup adj ni with
   | some r => (alookup r nj).isSome
   | none => false) ||
  (match alookup adj nj with
   | some r => (alookup r ni).isSome
   | none => false)

/-- The `i < j` double loop counting connected neighbour pairs. -/
def countTriangles (adj : List (String × List (String × Nat))) : List String → Nat
  | [] => 0
  | x :: rest => rest.countP (fun y => hasEdgeEither adj x y) + countTriangles adj rest

/-- `calculateClusteringCoefficient()`: union of out- and in-neighbours per
node, skip nodes with fewer than two neighbours, average the per-node ratios. -/
def calculateClusteringCoefficient (g : InteractionGraph) : ℚ :=
  let tc := g.nodes.foldl
    (fun (tc : ℚ × Nat) p =>
      let outNeighbors := ((alookup g.adjacency p.1).getD []).map Prod.fst
      let inNeighbors :=
        (g.adjacency.filter (fun row => (alookup row.2 p.1).isSome)).map Prod.fst
      let neighbors := dedupFirstSeen (outNeighbors ++ inNeighbors)
      let k := neighbors.length
      if k < 2 then tc
      else
        let triangles := countTriangles g.adjacency neighbors
        (tc.1 + (triangles : ℚ) / (((k : ℚ) * ((k : ℚ) - 1)) / 2), tc.2 + 1))
    (0, 0)
  if tc.2 > 0 then tc.1 / (tc.2 : ℚ) else 0

/-- JS `communities.get(id)!`: a missing key and a stored `undefined` both read
back as `undefined`, modelled as `none`. -/
def jsGet (m : List (String × Option Nat)) (k : String) : Option Nat :=
  (alookup m k).getD none

/-- `calculateModularityGain(nodeId, fromCommunity, toCommunity, communities)`. -/
def calculateModularityGain (g : InteractionGraph) (nodeId : String)
    (fromCommunity toCommunity : Option Nat)
    (communities : List (String × Option Nat)) : Int :=
  ((alookup g.adjacency nodeId).getD []).foldl
    (fun gain p =>
      let neighborCommunity := jsGet communities p.1
      if neighborCommunity = toCommunity then gain + (p.2 : Int)
      else if neighborCommunity = fromCommunity then gain - (p.2 : Int)
      else gain)
    0

/-- One pass of the greedy loop in `detectCommunities`: each node moves to the
neighbouring community of strictly largest positive gain; the Boolean records
whether any node moved during the pass. -/
def communityPass (g : InteractionGraph) (communities0 : List (String × Option Nat)) :
    List (String × Option Nat) × Bool :=
  g.nodes.foldl
    (fun (st : List (String × Option Nat) × Bool) p =>
      let communities := st.1
      let nodeId := p.1
      let currentCommunity := jsGet communities nodeId
      let neighborCommunities := dedupFirstSeen
        (((alookup g.adjacency nodeId).getD []).map (fun q => jsGet communities q.1))
      let best := neighborCommunities.foldl
        (fun (best : Option Nat × Int) targetCommunity =>
          if targetCommunity = currentCommunity then best
          else
            let gain :=
              calculateModularityGain g nodeId currentCommunity targetCommunity communities
            if gain > best.2 then (targetCommunity, gain) else best)
        (currentCommunity, 0)
      if best.1 ≠ currentCommunity then (aset communities nodeId best.1, true)
      else st)
    (communities0, false)

/-- `while (improved && iterations < 10)`: at most ten passes, stopping after
the first pass that moves no node. -/
def communityLoop (g : InteractionGraph) :
    Nat → List (String × Option Nat) → List (String × Option Nat)
  | 0, communities => communities
  | fuel + 1, communities =>
    let st := communityPass g communities
    if st.2 then communityLoop g fuel st.1 else st.1

/-- The final grouping loop of `detectCommunities`: bucket node ids under their
final community id (`result[commId].push(nodeId)`), creating buckets on first
use.  Numeric object keys iterate in ascending order in JS; only the key set
and the per-key lists are modelled, in bucket-creation order. -/
def groupCommunities :
    List (String × Option Nat) → List (Option Nat × List String) →
    List (Option Nat × List String)
  | [], result => result
  | (nodeId, commId) :: rest, result =>
    groupCommunities rest (aset result commId ((alookup result commId).getD [] ++ [nodeId]))

/-- `detectCommunities()`: singleton communities `0..n-1` in node order, the
greedy improvement loop, then grouping by final community id. -/
def detectCommunities (g : InteractionGraph) : List (Option Nat × List String) :=
  let init := (g.nodes.foldl
    (fun (st : List (String × Option Nat) × Nat) p => (aset st.1 p.1 (some st.2), st.2 + 1))
    ([], 0)).1
  groupCommunities (communityLoop g 10 init) []

/-- The record returned by `calculateRobustness`. -/
structure RobustnessResult where
  criticalNodes : List String
  vulnerabilityScore : ℚ
  connectivityAfterRemoval : Int
deriving Repr, DecidableEq

/-- An entry of the `vulnerabilities` array in `calculateRobustness`. -/
structure Vulnerability where
  nodeId : String
  impact : Int
deriving Repr, DecidableEq

/-- The per-source BFS of `calculateConnectivityForAdjacency`, accumulating
`reachablePairs`: a neighbour is enqueued when it is unvisited and still has a
row in `adj`.  `fuel` bounds dequeues. -/
def connectivityBfs (adj : List (String × List (String × Nat))) :
    Nat → List String → List String → Nat → Nat
  | 0, _, _, acc => acc
  | _ + 1, [], _, acc => acc
  | fuel + 1, current :: queue, visited, acc =>
    let st := ((alookup adj current).getD []).foldl
      (fun (st : List String × List String × Nat) p =>
        if p.1 ∉ st.2.1 ∧ (alookup adj p.1).isSome then
          (st.1 ++ [p.1], st.2.1 ++ [p.1], st.2.2 + 1)
        else st)
      (queue, visited, acc)
    connectivityBfs adj fuel st.1 st.2.1 st.2.2

/-- `calculateConnectivityForAdjacency(adj)`: ordered reachable pairs counted
over BFS from every row key. -/
def calculateConnectivityForAdjacency (adj : List (String × List (String × Nat))) : Nat :=
  adj.foldl (fun acc p => connectivityBfs adj (adj.length + 1) [p.1] [p.1] acc) 0

/-- The in-place effect of one simulated removal in `calculateRobustness`:
`new Map(this.adjacency)` copies only the outer map, so `neighbors.delete(nodeId)`
on each row of the copy mutates the shared inner rows — every row other than
`nodeId`'s own loses its entry for `nodeId`. -/
def removeNodeRefs (adj : List (String × List (String × Nat))) (nodeId : String) :
    List (String × List (String × Nat)) :=
  adj.map (fun row => if row.1 = nodeId then row else (row.1, aerase row.2 nodeId))

/-- The per-node loop of `calculateRobustness`, threading the adjacency state
it mutates: each iteration erases the references to the current node from the
shared inner rows, measures connectivity on the reduced map (outer copy minus
the node's own row), and records `impact = original − reduced`. -/
def robustnessLoop (orig : Nat) :
    List (String × KeyNode) → List (String × List (String × Nat)) →
    List Vulnerability × List (String × List (String × Nat))
  | [], adj => ([], adj)
  | p :: rest, adj =>
    let mutated := removeNodeRefs adj p.1
    let tempAdj := aerase mutated p.1
    let newConnectivity := calculateConnectivityForAdjacency tempAdj
    let impact : Int := (orig : Int) - (newConnectivity : Int)
    let res := robustnessLoop orig rest mutated
    (⟨p.1, impact⟩ :: res.1, res.2)

/-- Stable insertion into a list sorted by descending impact (matches JS
`sort((a, b) => b.impact - a.impact)`, which is stable). -/
def insertVulnDesc (v : Vulnerability) : List Vulnerability → List Vulnerability
  | [] => [v]
  | w :: rest => if w.impact ≥ v.impact then w :: insertVulnDesc v rest else v :: w :: rest

/-- Stable descending sort of the vulnerability list. -/
def sortVulnDesc (l : List Vulnerability) : List Vulnerability :=
  l.foldl (fun acc v => insertVulnDesc v acc) []

/-- `calculateRobustness()`, returning both the result record and the graph as
it stands after the call (the adjacency rows it mutated). -/
def calculateRobustness (g : InteractionGraph) : RobustnessResult × InteractionGraph :=
  let originalConnectivity := calculateConnectivityForAdjacency g.adjacency
  let lr := robustnessLoop originalConnectivity g.nodes g.adjacency
  let sorted := sortVulnDesc lr.1
  let criticalNodes := (sorted.take 3).map (fun v => v.nodeId)
  let maxImpact : Int :=
    match sorted with
    | [] => 0
    | v :: _ => v.impact
  let vulnerabilityScore : ℚ :=
    if originalConnectivity > 0 then (maxImpact : ℚ) / (originalConnectivity : ℚ) else 0
  ({ criticalNodes := criticalNodes
   , vulnerabilityScore := vulnerabilityScore
   , connectivityAfterRemoval := (originalConnectivity : Int) - maxImpact },
   { g with adjacency := lr.2 })

/-- The weight the adjacency mapping stores for the ordered pair `(f, t)`
(`none` when `adjacency[f]` has no entry for `t` or no row for `f` exists). -/
def adjWeight (g : InteractionGraph) (f t : String) : Option Nat :=
  (alookup g.adjacency f).bind (fun row => alookup row t)

/-- The weight of the first Edge record with key `(f, t)` in an edge list. -/
def edgeWeight : List GraphEdge → String → String → Option Nat
  | [], _, _ => none
  | e :: es, f, t => if e.fromId = f ∧ e.toId = t then some e.weight else edgeWeight es f t

/-- The spec's adjacency–edge-list consistency invariant:
`adjacency[from][to]` is exactly the weight of the Edge record `(from, to)`. -/
def adjEdgeConsistent (g : InteractionGraph) : Prop :=
  ∀ f t, adjWeight g f t = edgeWeight g.edges f t

/-- A mutating call on the Graph Store (`addEdge` or `reset`). -/
inductive GraphOp where
  | add (f t : String) (now : Nat)
  | doReset
deriving Repr, DecidableEq

/-- Apply one mutating call. -/
def applyOp (g : InteractionGraph) : GraphOp → InteractionGraph
  | .add f t now => addEdge g f t now
  | .doReset => reset g

/-- Apply a sequence of mutating calls in order. -/
def applyOps (g : InteractionGraph) (ops : List GraphOp) : InteractionGraph :=
  ops.foldl applyOp g

/-- Apply a sequence of `addEdge(from, to)` calls (with their clock readings). -/
def addEdgeCalls (g : InteractionGraph) (calls : List (String × String × Nat)) :
    InteractionGraph :=
  calls.foldl (fun g c => addEdge g c.1 c.2.1 c.2.2) g

/-- Well-formedness every constructor-reachable state enjoys: node keys are
distinct, the adjacency holds one row per vocabulary node in node order, rows
only reference vocabulary nodes, and row keys are distinct (JS `Map`s cannot
hold duplicate keys). -/
def wfGraph (g : InteractionGraph) : Prop :=
  (g.nodes.map Prod.fst).Nodup ∧
  g.adjacency.map Prod.fst = g.nodes.map Prod.fst ∧
  (∀ row ∈ g.adjacency, ∀ q ∈ row.2, q.1 ∈ g.nodes.map Prod.fst) ∧
  ∀ row ∈ g.adjacency, (row.2.map Prod.fst).Nodup

instance (g : InteractionGraph) : Decidable (wfGraph g) := by
  unfold wfGraph; infer_instance

/-- The adjacency components of `wfGraph`, stated of an adjacency value apart
from the store (used to follow the rows `calculateRobustness` rewrites). -/
def wfAdjacencyOf (g : InteractionGraph)
    (adj : List (String × List (String × Nat))) : Prop :=
  adj.map Prod.fst = g.nodes.map Prod.fst ∧
  (∀ row ∈ adj, ∀ q ∈ row.2, q.1 ∈ g.nodes.map Prod.fst) ∧
  ∀ row ∈ adj, (row.2.map Prod.fst).Nodup

/-- A vocabulary node with neutral display fields, for concrete test graphs. -/
def exNode (id : String) : KeyNode :=
  { id := id, label := id, color := "", position := (0, 0), radius := 0
  , selectionCount := 0, lastSelected := none }

/-- Two-node store `{A, B}` after one `addEdge("A", "B")` at time 7. -/
def exGraphAB : InteractionGraph :=
  addEdge (mkGraph [exNode "A", exNode "B"]) "A" "B" 7

/-- Four-node store after the directed path `A→B→C→D` (three `addEdge` calls). -/
def exGraphPath : InteractionGraph :=
  addEdge (addEdge (addEdge (mkGraph [exNode "A", exNode "B", exNode "C", exNode "D"])
    "A" "B" 1) "B" "C" 2) "C" "D" 3

/-- Fresh single-node store. -/
def exGraphA : InteractionGraph := mkGraph [exNode "A"]

/-- The C5 bookkeeping invariant for a communities map: it is keyed exactly by
the vocabulary (in node order) and every stored community id is `some j` with
`j` below the node count. -/
def commInv (g : InteractionGraph) (m : List (String × Option Nat)) : Prop :=
  m.map Prod.fst = g.nodes.map Prod.fst ∧
  ∀ q ∈ m, ∃ j, q.2 = some j ∧ j < g.nodes.length

/-- Invariant of C10: the `selectionCount` stored for a node id equals the
number of occurrences of that id in the transition sequence. -/
def selCountInv (g : InteractionGraph) : Prop :=
  ∀ k nd, alookup g.nodes k = some nd →
    nd.selectionCount = g.transitionSequence.count k

section AListLemmas

variable {κ β : Type} [DecidableEq κ]

theorem alookup_nil (k : κ) : alookup ([] : List (κ × β)) k = none := rfl

theorem alookup_cons (p : κ × β) (m : List (κ × β)) (k : κ) :
    alookup (p :: m) k = if p.1 = k then some p.2 else alookup m k := rfl

theorem aset_nil (k : κ) (v : β) : aset ([] : List (κ × β)) k v = [(k, v)] := rfl

theorem aset_cons (p : κ × β) (m : List (κ × β)) (k : κ) (v : β) :
    aset (p :: m) k v = if p.1 = k then (k, v) :: m else p :: aset m k v := rfl

theorem aupdate_cons (p : κ × β) (m : List (κ × β)) (k : κ) (f : β → β) :
    aupdate (p :: m) k f = if p.1 = k then (p.1, f p.2) :: m else p :: aupdate m k f := rfl

theorem alookup_aset_self (m : List (κ × β)) (k : κ) (v : β) :
    alookup (aset m k v) k = some v := by
  induction m with
  | nil => simp [aset, alookup]
  | cons p rest ih =>
    by_cases h : p.1 = k
    · simp [aset, h, alookup]
    · simp [aset, h, alookup, ih]

theorem alookup_aset_ne (m : List (κ × β)) {k k' : κ} (v : β) (h : k' ≠ k) :
    alookup (aset m k v) k' = alookup m k' := by
  induction m with
  | nil =>
    rw [aset_nil, alookup_cons, if_neg (fun hh => h hh.symm), alookup_nil]
  | cons p rest ih =>
    by_cases hp : p.1 = k
    · subst hp
      have hne : ¬p.1 = k' := fun hh => h hh.symm
      rw [aset_cons, if_pos rfl, alookup_cons, alookup_cons, if_neg hne, if_neg hne]
    · rw [aset_cons, if_neg hp, alookup_cons, alookup_cons, ih]

theorem alookup_aset_isSome (m : List (κ × β)) (k k' : κ) (v : β) :
    (alookup (aset m k v) k').isSome ↔ k' = k ∨ (alookup m k').isSome := by
  by_cases h : k' = k
  · subst h; simp [alookup_aset_self]
  · simp [alookup_aset_ne m v h, h]

theorem alookup_isSome_iff_mem (m : List (κ × β)) (k : κ) :
    (alookup m k).isSome ↔ k ∈ m.map Prod.fst := by
  induction m with
  | nil => simp [alookup]
  | cons p rest ih =>
    rw [alookup_cons]
    by_cases h : p.1 = k
    · simp [h]
    · rw [if_neg h]
      simp only [List.map_cons, List.mem_cons, ih]
      constructor
      · exact Or.inr
      · rintro (hh | hh)
        · exact absurd hh.symm h
        · exact hh

theorem mem_of_alookup_eq_some {m : List (κ × β)} {k : κ} {v : β}
    (h : alookup m k = some v) : (k, v) ∈ m := by
  induction m with
  | nil => simp [alookup] at h
  | cons p rest ih =>
    by_cases hp : p.1 = k
    · rw [alookup_cons, if_pos hp] at h
      have hp2 : p = (k, v) := by
        cases p
        simp only [Option.some_inj] at h
        simp_all
      rw [← hp2]
      exact List.mem_cons_self p rest
    · rw [alookup_cons, if_neg hp] at h
      exact List.mem_cons_of_mem _ (ih h)

theorem mem_aset {m : List (κ × β)} {k : κ} {v : β} {p : κ × β}
    (h : p ∈ aset m k v) : p ∈ m ∨ p = (k, v) := by
  induction m with
  | nil => simp [aset] at h; simp [h]
  | cons q rest ih =>
    by_cases hq : q.1 = k
    · simp [aset, hq] at h
      rcases h with h | h
      · right; simp [h]
      · left; exact List.mem_cons_of_mem _ h
    · simp [aset, hq] at h
      rcases h with h | h
      · left; simp [h]
      · rcases ih h with h' | h'
        · left; exact List.mem_cons_of_mem _ h'
        · right; exact h'

theorem aset_map_fst_of_mem {m : List (κ × β)} {k : κ} (v : β)
    (h : k ∈ m.map Prod.fst) : (aset m k v).map Prod.fst = m.map Prod.fst := by
  induction m with
  | nil => simp at h
  | cons q rest ih =>
    by_cases hq : q.1 = k
    · simp [aset, hq]
    · simp at h
      rcases h with h | h
      · exact absurd h.symm hq
      · simp [aset, hq, ih (by simpa using h)]

theorem aupdate_map_fst (m : List (κ × β)) (k : κ) (f : β → β) :
    (aupdate m k f).map Prod.fst = m.map Prod.fst := by
  induction m with
  | nil => simp [aupdate]
  | cons p rest ih =>
    by_cases h : p.1 = k
    · simp [aupdate, h]
    · simp [aupdate, h, ih]

theorem alookup_aupdate_self (m : List (κ × β)) (k : κ) (f : β → β) :
    alookup (aupdate m k f) k = (alookup m k).map f := by
  induction m with
  | nil => simp [aupdate, alookup]
  | cons p rest ih =>
    by_cases h : p.1 = k
    · simp [aupdate, h, alookup]
    · simp [aupdate, h, alookup, ih]

theorem alookup_aupdate_ne (m : List (κ × β)) {k k' : κ} (f : β → β) (h : k' ≠ k) :
    alookup (aupdate m k f) k' = alookup m k' := by
  induction m with
  | nil => simp [aupdate]
  | cons p rest ih =>
    by_cases hp : p.1 = k
    · subst hp
      have hne : ¬p.1 = k' := fun hh => h hh.symm
      rw [aupdate_cons, if_pos rfl, alookup_cons, alookup_cons, if_neg hne, if_neg hne]
    · rw [aupdate_cons, if_neg hp, alookup_cons, alookup_cons, ih]

theorem alookup_aupdate_isSome (m : List (κ × β)) (k k' : κ) (f : β → β) :
    (alookup (aupdate m k f) k').isSome = (alookup m k').isSome := by
  by_cases h : k' = k
  · subst h; simp [alookup_aupdate_self]
  · simp [alookup_aupdate_ne m f h]

theorem alookup_foldl_aset_isSome {α : Type} (key : α → κ) (val : α → β)
    (l : List α) (m₀ : List (κ × β)) (k : κ) :
    (alookup (l.foldl (fun m x => aset m (key x) (val x)) m₀) k).isSome ↔
      (alookup m₀ k).isSome ∨ k ∈ l.map key := by
  induction l generalizing m₀ with
  | nil => simp
  | cons x rest ih =>
    simp only [List.foldl_cons, ih, alookup_aset_isSome, List.map_cons, List.mem_cons]
    tauto

theorem alookup_foldl_aset_const {α : Type} (key : α → κ) (c : β)
    (l : List α) (m₀ : List (κ × β)) (k : κ)
    (h : ∀ v, alookup m₀ k = some v → v = c) :
    ∀ v, alookup (l.foldl (fun m x => aset m (key x) c) m₀) k = some v → v = c := by
  induction l generalizing m₀ with
  | nil => exact h
  | cons x rest ih =>
    intro v hv
    refine ih (aset m₀ (key x) c) ?_ v hv
    intro w hw
    by_cases hk : k = key x
    · subst hk
      rw [alookup_aset_self] at hw
      exact (Option.some_inj.mp hw).symm
    · rw [alookup_aset_ne m₀ c hk] at hw
      exact h w hw

end AListLemmas

section GraphLemmas

theorem mkGraph_nodes_isSome (ns : List KeyNode) (k : String) :
    (alookup (mkGraph ns).nodes k).isSome ↔ k ∈ ns.map KeyNode.id := by
  have h := alookup_foldl_aset_isSome KeyNode.id (fun node => node) ns [] k
  simpa [mkGraph, alookup] using h

theorem mkGraph_adjacency_isSome (ns : List KeyNode) (k : String) :
    (alookup (mkGraph ns).adjacency k).isSome ↔ k ∈ ns.map KeyNode.id := by
  have h := alookup_foldl_aset_isSome KeyNode.id
    (fun _ => ([] : List (String × Nat))) ns [] k
  simpa [mkGraph, alookup] using h

theorem mkGraph_adjacency_eq_some (ns : List KeyNode) (k : String)
    (v : List (String × Nat)) (h : alookup (mkGraph ns).adjacency k = some v) :
    v = [] := by
  exact alookup_foldl_aset_const KeyNode.id [] ns [] k (by simp [alookup]) v h

theorem addEdge_not_valid (g : InteractionGraph) (f t : String) (now : Nat)
    (h : ¬((alookup g.nodes f).isSome ∧ (alookup g.nodes t).isSome)) :
    addEdge g f t now = g := by
  simp [addEdge, h]

theorem addEdge_valid (g : InteractionGraph) (f t : String) (now : Nat)
    (hf : (alookup g.nodes f).isSome) (ht : (alookup g.nodes t).isSome) :
    addEdge g f t now =
      { nodes := aupdate g.nodes t (fun nd =>
          { nd with selectionCount := nd.selectionCount + 1, lastSelected := some now })
      , adjacency := aset g.adjacency f
          (aset ((alookup g.adjacency f).getD []) t
            (((alookup ((alookup g.adjacency f).getD []) t).getD 0) + 1))
      , edges := bumpEdges g.edges f t now
      , transitionSequence := g.transitionSequence ++ [t] } := by
  simp [addEdge, hf, ht]

theorem edgeWeight_bumpEdges (es : List GraphEdge) (f t : String) (now : Nat)
    (f' t' : String) :
    edgeWeight (bumpEdges es f t now) f' t' =
      if f' = f ∧ t' = t then some ((edgeWeight es f t).getD 0 + 1)
      else edgeWeight es f' t' := by
  induction es with
  | nil =>
    by_cases h : f' = f ∧ t' = t
    · obtain ⟨rfl, rfl⟩ := h
      simp [bumpEdges, edgeWeight]
    · rw [if_neg h]
      have h2 : ¬(f = f' ∧ t = t') := fun hh => h ⟨hh.1.symm, hh.2.symm⟩
      simp [bumpEdges, edgeWeight, h2]
  | cons e es ih =>
    by_cases he : e.fromId = f ∧ e.toId = t
    · rw [show bumpEdges (e :: es) f t now =
          { e with weight := e.weight + 1, timestamp := now } :: es from by
        simp [bumpEdges, he]]
      by_cases h : f' = f ∧ t' = t
      · obtain ⟨rfl, rfl⟩ := h
        rw [if_pos ⟨rfl, rfl⟩]
        simp [edgeWeight, he]
      · rw [if_neg h]
        have hke : ¬(e.fromId = f' ∧ e.toId = t') := by
          intro hh
          exact h ⟨hh.1.symm.trans he.1, hh.2.symm.trans he.2⟩
        simp [edgeWeight, hke]
    · rw [show bumpEdges (e :: es) f t now = e :: bumpEdges es f t now from by
        simp [bumpEdges, he]]
      by_cases h : f' = f ∧ t' = t
      · obtain ⟨rfl, rfl⟩ := h
        rw [if_pos ⟨rfl, rfl⟩]
        simp [edgeWeight, he, ih]
      · rw [if_neg h]
        by_cases hke : e.fromId = f' ∧ e.toId = t'
        · simp [edgeWeight, hke]
        · simp [edgeWeight, hke, ih, h]

theorem adjWeight_addEdge (g : InteractionGraph) (f t : String) (now : Nat)
    (hf : (alookup g.nodes f).isSome) (ht : (alookup g.nodes t).isSome)
    (f' t' : String) :
    adjWeight (addEdge g f t now) f' t' =
      if f' = f ∧ t' = t then some ((adjWeight g f t).getD 0 + 1)
      else adjWeight g f' t' := by
  rw [addEdge_valid g f t now hf ht]
  by_cases hf' : f' = f
  · subst hf'
    show (alookup (aset g.adjacency f' _) f').bind _ = _
    rw [alookup_aset_self]
    by_cases ht' : t' = t
    · subst ht'
      rw [if_pos ⟨rfl, rfl⟩]
      show alookup (aset _ t' _) t' = _
      rw [alookup_aset_self]
      cases hrow : alookup g.adjacency f' with
      | none => simp [adjWeight, hrow, alookup]
      | some row => simp [adjWeight, hrow]
    · rw [if_neg (fun hh => ht' hh.2)]
      show alookup (aset _ t _) t' = _
      rw [alookup_aset_ne _ _ ht']
      cases hrow : alookup g.adjacency f' with
      | none => simp [adjWeight, hrow, alookup]
      | some row => simp [adjWeight, hrow]
  · rw [if_neg (fun hh => hf' hh.1)]
    show (alookup (aset g.adjacency f _) f').bind _ = _
    rw [alookup_aset_ne _ _ hf']
    rfl

theorem adjEdgeConsistent_mkGraph (ns : List KeyNode) :
    adjEdgeConsistent (mkGraph ns) := by
  intro f t
  have hedges : (mkGraph ns).edges = [] := rfl
  rw [hedges]
  show (alookup (mkGraph ns).adjacency f).bind _ = _
  cases hrow : alookup (mkGraph ns).adjacency f with
  | none => rfl
  | some row =>
    rw [mkGraph_adjacency_eq_some ns f row hrow]
    rfl

theorem adjEdgeConsistent_reset (g : InteractionGraph) :
    adjEdgeConsistent (reset g) := by
  intro f t
  have hedges : (reset g).edges = [] := rfl
  rw [hedges]
  show (alookup (reset g).adjacency f).bind _ = _
  cases hrow : alookup (reset g).adjacency f with
  | none => rfl
  | some row =>
    have : row = [] := by
      refine alookup_foldl_aset_const Prod.fst [] g.nodes [] f ?_ row hrow
      simp [alookup]
    rw [this]
    rfl

theorem adjEdgeConsistent_addEdge (g : InteractionGraph) (f t : String) (now : Nat)
    (h : adjEdgeConsistent g) : adjEdgeConsistent (addEdge g f t now) := by
  by_cases hv : (alookup g.nodes f).isSome ∧ (alookup g.nodes t).isSome
  · intro f' t'
    rw [adjWeight_addEdge g f t now hv.1 hv.2 f' t']
    have hedges : (addEdge g f t now).edges = bumpEdges g.edges f t now := by
      rw [addEdge_valid g f t now hv.1 hv.2]
    rw [hedges, edgeWeight_bumpEdges]
    by_cases hk : f' = f ∧ t' = t
    · rw [if_pos hk, if_pos hk, h f t]
    · rw [if_neg hk, if_neg hk, h f' t']
  · rw [addEdge_not_valid g f t now hv]
    exact h

end GraphLemmas

section ClaimsC1toC4

/-- C1: the spec says metric computation never mutates graph state, and the
code of `calculateRobustness` plainly intends a simulation on a temporary copy
(`tempAdj`); but `new Map(this.adjacency)` shares the inner row maps, so the
simulated removals delete the real adjacency entries.  On the two-node store
with one edge `A→B`, the adjacency after `calculateRobustness()` differs from
the adjacency before the call. -/
theorem calculateRobustness_mutates_exGraphAB :
    exGraphAB.adjacency = [("A", [("B", 1)]), ("B", [])] ∧
    (calculateRobustness exGraphAB).2.adjacency = [("A", []), ("B", [])] ∧
    (calculateRobustness exGraphAB).2.adjacency ≠ exGraphAB.adjacency := by decide

/-- C2, counterexample: after `addEdge("A","B")` followed by one metric
computation (`calculateRobustness`), the adjacency has no entry for `(A,B)`
while the Edge record `(A,B)` still has weight 1 — the consistency claim fails
once metric-computation calls are allowed in the sequence. -/
theorem adjEdgeConsistent_broken_by_robustness :
    ¬ adjEdgeConsistent (calculateRobustness exGraphAB).2 :=
  fun h => absurd (h "A" "B") (by decide)

/-- C2, amended: in every state reachable from construction via `addEdge` and
`reset` calls alone, `adjacency[from][to]` equals the weight of the Edge
record `(from,to)` when that edge exists and is absent when it does not. -/
theorem adjEdgeConsistent_reachable (ns : List KeyNode) (ops : List GraphOp) :
    adjEdgeConsistent (applyOps (mkGraph ns) ops) := by
  have key : ∀ (ops' : List GraphOp) (g : InteractionGraph),
      adjEdgeConsistent g → adjEdgeConsistent (applyOps g ops') := by
    intro ops'
    induction ops' with
    | nil => exact fun g h => h
    | cons op rest ih =>
      intro g h
      cases op with
      | add f t now => exact ih _ (adjEdgeConsistent_addEdge g f t now h)
      | doReset => exact ih _ (adjEdgeConsistent_reset g)
  exact key ops _ (adjEdgeConsistent_mkGraph ns)

/-- C3, counterexample: one `addEdge` call naming the unknown id `X` leaves the
transition sequence empty, so its length is not the number of `addEdge` calls
when no-op calls are counted. -/
theorem transitionSequence_ignores_unknown_calls :
    (addEdgeCalls exGraphA [("X", "A", 0)]).transitionSequence.length ≠ 1 := by decide

theorem addEdge_nodes_isSome (g : InteractionGraph) (f t : String) (now : Nat)
    (k : String) :
    (alookup (addEdge g f t now).nodes k).isSome = (alookup g.nodes k).isSome := by
  by_cases hv : (alookup g.nodes f).isSome ∧ (alookup g.nodes t).isSome
  · rw [addEdge_valid g f t now hv.1 hv.2]
    exact alookup_aupdate_isSome g.nodes t k _
  · rw [addEdge_not_valid g f t now hv]

theorem addEdge_transitionSequence (g : InteractionGraph) (f t : String)
    (now : Nat) :
    (addEdge g f t now).transitionSequence =
      if (alookup g.nodes f).isSome ∧ (alookup g.nodes t).isSome then
        g.transitionSequence ++ [t]
      else g.transitionSequence := by
  by_cases hv : (alookup g.nodes f).isSome ∧ (alookup g.nodes t).isSome
  · rw [addEdge_valid g f t now hv.1 hv.2, if_pos hv]
  · rw [addEdge_not_valid g f t now hv, if_neg hv]

theorem addEdgeCalls_seq_length (g : InteractionGraph)
    (calls : List (String × String × Nat)) :
    (addEdgeCalls g calls).transitionSequence.length =
      g.transitionSequence.length +
        (calls.filter (fun c =>
          (alookup g.nodes c.1).isSome && (alookup g.nodes c.2.1).isSome)).length := by
  induction calls generalizing g with
  | nil => simp [addEdgeCalls]
  | cons c rest ih =>
    have hstep : addEdgeCalls g (c :: rest) =
        addEdgeCalls (addEdge g c.1 c.2.1 c.2.2) rest := rfl
    rw [hstep, ih]
    have hpred : ∀ x ∈ rest,
        ((alookup (addEdge g c.1 c.2.1 c.2.2).nodes x.1).isSome &&
          (alookup (addEdge g c.1 c.2.1 c.2.2).nodes x.2.1).isSome) =
        ((alookup g.nodes x.1).isSome && (alookup g.nodes x.2.1).isSome) := by
      intro x _
      rw [addEdge_nodes_isSome, addEdge_nodes_isSome]
    rw [List.filter_congr hpred, addEdge_transitionSequence]
    by_cases hv : (alookup g.nodes c.1).isSome ∧ (alookup g.nodes c.2.1).isSome
    · rw [if_pos hv, List.filter_cons]
      have hb : ((alookup g.nodes c.1).isSome && (alookup g.nodes c.2.1).isSome) = true := by
        simp [hv.1, hv.2]
      simp only [hb, if_true, List.length_append, List.length_cons, List.length_nil]
      omega
    · rw [if_neg hv, List.filter_cons]
      have hb : ((alookup g.nodes c.1).isSome && (alookup g.nodes c.2.1).isSome) = false := by
        rcases not_and_or.mp hv with h | h <;> simp [Bool.eq_false_iff.mpr h]
      simp only [hb, if_false, Bool.false_eq_true]

/-- C3, amended: on a store whose transition sequence is empty (freshly
constructed or freshly reset), after any sequence of `addEdge` calls the
length of the transition sequence equals the number of calls whose two
arguments are both known vocabulary ids (no-op calls are not counted). -/
theorem transitionSequence_counts_valid_calls (g : InteractionGraph)
    (calls : List (String × String × Nat)) (hseq : g.transitionSequence = []) :
    (addEdgeCalls g calls).transitionSequence.length =
      (calls.filter (fun c =>
        (alookup g.nodes c.1).isSome && (alookup g.nodes c.2.1).isSome)).length := by
  rw [addEdgeCalls_seq_length, hseq]
  simp

/-- Witness for the amended C3 on a one-node vocabulary: of the two calls, only
`addEdge("A","A")` has both ids known, and the final sequence has length 1. -/
theorem transitionSequence_counts_valid_calls_witness :
    exGraphA.transitionSequence = [] ∧
      (addEdgeCalls exGraphA [("A", "A", 0), ("X", "A", 1)]).transitionSequence.length =
        ([("A", "A", 0), ("X", "A", 1)].filter (fun c =>
          (alookup exGraphA.nodes c.1).isSome && (alookup exGraphA.nodes c.2.1).isSome)).length :=
  ⟨by decide, transitionSequence_counts_valid_calls exGraphA _ (by decide)⟩

/-- C4: `addEdge(from, to)` with either id unknown is a complete no-op: it
returns (never throws) and leaves the whole state — nodes with their
`selectionCount`/`lastSelected`, adjacency, edges, transition sequence —
exactly as it was. -/
theorem addEdge_unknown_noop (g : InteractionGraph) (f t : String) (now : Nat)
    (h : alookup g.nodes f = none ∨ alookup g.nodes t = none) :
    addEdge g f t now = g := by
  apply addEdge_not_valid
  rcases h with h | h <;> simp [h]

/-- Witness for C4: `addEdge("X","A")` on the one-node store `{A}`. -/
theorem addEdge_unknown_noop_witness :
    alookup exGraphA.nodes "X" = none ∧ addEdge exGraphA "X" "A" 5 = exGraphA :=
  ⟨by decide, addEdge_unknown_noop exGraphA "X" "A" 5 (Or.inl (by decide))⟩

end ClaimsC1toC4

section ClaimC10

theorem selCountInv_addEdge (g : InteractionGraph) (f t : String) (now : Nat)
    (h : selCountInv g) : selCountInv (addEdge g f t now) := by
  by_cases hv : (alookup g.nodes f).isSome ∧ (alookup g.nodes t).isSome
  · rw [addEdge_valid g f t now hv.1 hv.2]
    intro k nd hnd
    simp only at hnd
    by_cases hk : k = t
    · subst hk
      rw [alookup_aupdate_self] at hnd
      cases hm : alookup g.nodes k with
      | none => rw [hm] at hnd; simp [Option.map] at hnd
      | some nd0 =>
        rw [hm] at hnd
        simp only [Option.map, Option.some_inj] at hnd
        have hc := h k nd0 hm
        rw [← hnd]
        simp [List.count_append, List.count_cons, hc]
    · rw [alookup_aupdate_ne _ _ hk] at hnd
      have hc := h k nd hnd
      have hne : (t == k) = false := beq_eq_false_iff_ne.mpr (fun hh => hk hh.symm)
      simp [List.count_append, List.count_cons, hc, hne]
  · rw [addEdge_not_valid g f t now hv]
    exact h

theorem selCountInv_addEdgeCalls (g : InteractionGraph)
    (calls : List (String × String × Nat)) (h : selCountInv g) :
    selCountInv (addEdgeCalls g calls) := by
  induction calls generalizing g with
  | nil => exact h
  | cons c rest ih => exact ih _ (selCountInv_addEdge g c.1 c.2.1 c.2.2 h)

/-- C10: starting from a state where every node's `selectionCount` is 0 and
the transition sequence is empty (as after construction or `reset`), every
sequence of `addEdge` calls preserves `selectionCount(id) = number of
occurrences of id in the transition sequence`. -/
theorem selectionCount_matches_sequence (g : InteractionGraph)
    (calls : List (String × String × Nat))
    (h0 : ∀ p ∈ g.nodes, p.2.selectionCount = 0)
    (hseq : g.transitionSequence = []) :
    selCountInv (addEdgeCalls g calls) := by
  apply selCountInv_addEdgeCalls
  intro k nd hnd
  rw [hseq, List.count_nil]
  exact h0 (k, nd) (mem_of_alookup_eq_some hnd)

/-- Witness for C10 on the fresh two-node store with calls
`addEdge("A","B")`, `addEdge("B","B")`, `addEdge("X","B")`. -/
theorem selectionCount_matches_sequence_witness :
    (∀ p ∈ (mkGraph [exNode "A", exNode "B"]).nodes, p.2.selectionCount = 0) ∧
      (mkGraph [exNode "A", exNode "B"]).transitionSequence = [] ∧
      selCountInv (addEdgeCalls (mkGraph [exNode "A", exNode "B"])
        [("A", "B", 1), ("B", "B", 2), ("X", "B", 3)]) :=
  ⟨by decide, by decide,
    selectionCount_matches_sequence (mkGraph [exNode "A", exNode "B"]) _
      (by decide) (by decide)⟩

end ClaimC10

section ClaimC7

/-- C7: two `addEdge(A,B)` calls on a fresh store (for any vocabulary nodes
`A`, `B`) yield adjacency weight 2 for `(A,B)`, exactly one Edge record — with
weight 2 and the second call's timestamp — and transition sequence `[B, B]`. -/
theorem double_addEdge_spec (ns : List KeyNode) (A B : String) (n1 n2 : Nat)
    (hA : (alookup (mkGraph ns).nodes A).isSome)
    (hB : (alookup (mkGraph ns).nodes B).isSome) :
    adjWeight (addEdge (addEdge (mkGraph ns) A B n1) A B n2) A B = some 2 ∧
    (addEdge (addEdge (mkGraph ns) A B n1) A B n2).edges =
      [{ fromId := A, toId := B, weight := 2, timestamp := n2 }] ∧
    (addEdge (addEdge (mkGraph ns) A B n1) A B n2).transitionSequence = [B, B] := by
  have hrowA : alookup (mkGraph ns).adjacency A = some [] := by
    have h1 : (alookup (mkGraph ns).adjacency A).isSome := by
      rw [mkGraph_adjacency_isSome]
      exact (mkGraph_nodes_isSome ns A).mp hA
    obtain ⟨v, hv⟩ := Option.isSome_iff_exists.mp h1
    rw [hv, mkGraph_adjacency_eq_some ns A v hv]
  have e1 := addEdge_valid (mkGraph ns) A B n1 hA hB
  have hg1adj : (addEdge (mkGraph ns) A B n1).adjacency
      = aset (mkGraph ns).adjacency A [(B, 1)] := by
    rw [e1]
    simp [hrowA, alookup, aset]
  have h1A : (alookup (addEdge (mkGraph ns) A B n1).nodes A).isSome := by
    rw [addEdge_nodes_isSome]; exact hA
  have h1B : (alookup (addEdge (mkGraph ns) A B n1).nodes B).isSome := by
    rw [addEdge_nodes_isSome]; exact hB
  have hg1edges : (addEdge (mkGraph ns) A B n1).edges =
      [{ fromId := A, toId := B, weight := 1, timestamp := n1 }] := by
    rw [e1]
    show bumpEdges (mkGraph ns).edges A B n1 = _
    rfl
  have hg1seq : (addEdge (mkGraph ns) A B n1).transitionSequence = [B] := by
    rw [e1]
    show (mkGraph ns).transitionSequence ++ [B] = [B]
    rfl
  have hrowA2 : alookup (addEdge (mkGraph ns) A B n1).adjacency A = some [(B, 1)] := by
    rw [hg1adj, alookup_aset_self]
  have e2 := addEdge_valid (addEdge (mkGraph ns) A B n1) A B n2 h1A h1B
  refine ⟨?_, ?_, ?_⟩
  · have hadj2 : (addEdge (addEdge (mkGraph ns) A B n1) A B n2).adjacency
        = aset (addEdge (mkGraph ns) A B n1).adjacency A [(B, 2)] := by
      rw [e2]
      simp [hrowA2, alookup, aset]
    show (alookup _ A).bind _ = _
    rw [hadj2, alookup_aset_self]
    simp [alookup]
  · rw [e2]
    show bumpEdges (addEdge (mkGraph ns) A B n1).edges A B n2 = _
    rw [hg1edges]
    simp [bumpEdges]
  · rw [e2]
    show (addEdge (mkGraph ns) A B n1).transitionSequence ++ [B] = _
    rw [hg1seq]
    rfl

/-- Witness for C7 on the two-node vocabulary `{A, B}`. -/
theorem double_addEdge_spec_witness :
    ((alookup (mkGraph [exNode "A", exNode "B"]).nodes "A").isSome ∧
      (alookup (mkGraph [exNode "A", exNode "B"]).nodes "B").isSome) ∧
    (adjWeight (addEdge (addEdge (mkGraph [exNode "A", exNode "B"]) "A" "B" 1) "A" "B" 2)
        "A" "B" = some 2 ∧
      (addEdge (addEdge (mkGraph [exNode "A", exNode "B"]) "A" "B" 1) "A" "B" 2).edges =
        [{ fromId := "A", toId := "B", weight := 2, timestamp := 2 }] ∧
      (addEdge (addEdge (mkGraph [exNode "A", exNode "B"]) "A" "B" 1) "A" "B" 2).transitionSequence =
        ["B", "B"]) :=
  ⟨⟨by decide, by decide⟩,
    double_addEdge_spec [exNode "A", exNode "B"] "A" "B" 1 2 (by decide) (by decide)⟩

end ClaimC7

section ClaimC9

theorem getInDegree_foldl_zero (id : String)
    (l : List (String × List (String × Nat))) (acc : Nat)
    (h : ∀ row ∈ l, alookup row.2 id = none) :
    l.foldl (fun acc p =>
      match alookup p.2 id with
      | some w => acc + w
      | none => acc) acc = acc := by
  induction l generalizing acc with
  | nil => rfl
  | cons row rest ih =>
    have h0 := h row (List.mem_cons_self row rest)
    rw [List.foldl_cons]
    simp only [h0]
    exact ih acc (fun r hr => h r (List.mem_cons_of_mem _ hr))

/-- C9: on a well-formed store, `getInDegree` and `getOutDegree` applied to an
id outside the vocabulary return 0 (and, being total, never throw). -/
theorem degree_unknown_id_zero (g : InteractionGraph) (id : String)
    (hwf : wfGraph g) (h : alookup g.nodes id = none) :
    getInDegree g id = 0 ∧ getOutDegree g id = 0 := by
  obtain ⟨-, hkeys, hrows, -⟩ := hwf
  have hmem : id ∉ g.nodes.map Prod.fst := by
    intro hm
    have h2 := (alookup_isSome_iff_mem g.nodes id).mpr hm
    rw [h] at h2
    simp at h2
  constructor
  · unfold getInDegree
    apply getInDegree_foldl_zero
    intro row hr
    cases hcase : alookup row.2 id with
    | none => rfl
    | some w =>
      exact absurd (hrows row hr (id, w) (mem_of_alookup_eq_some hcase)) hmem
  · unfold getOutDegree
    cases hcase : alookup g.adjacency id with
    | none => rfl
    | some row =>
      have h1 : (alookup g.adjacency id).isSome := by rw [hcase]; rfl
      rw [alookup_isSome_iff_mem, hkeys] at h1
      exact absurd h1 hmem

/-- Witness for C9: the id `Z` is unknown to the two-node store. -/
theorem degree_unknown_id_zero_witness :
    wfGraph exGraphAB ∧ alookup exGraphAB.nodes "Z" = none ∧
      getInDegree exGraphAB "Z" = 0 ∧ getOutDegree exGraphAB "Z" = 0 :=
  ⟨by decide, by decide, degree_unknown_id_zero exGraphAB "Z" (by decide) (by decide)⟩

end ClaimC9

section ClaimC6

/-- C6: on the 4-node directed path `A→B→C→D` (each weight 1), betweenness
centrality is `1/3` for both `B` and `C` (equal and strictly positive) and `0`
for `A` and `D`. -/
theorem betweenness_directed_path :
    calculateBetweennessCentrality exGraphPath =
      [("A", 0), ("B", 1 / 3), ("C", 1 / 3), ("D", 0)] ∧ (0 : ℚ) < 1 / 3 := by
  constructor
  · simp +decide only [calculateBetweennessCentrality, brandesVisit, brandesAccum,
      exGraphPath, exNode, mkGraph, addEdge, bumpEdges, aupdate, alookup, aset,
      dedupFirstSeen, List.foldl, List.map, Option.getD, Option.isSome]
    norm_num
  · norm_num

end ClaimC6

section ClaimC5

/-- C5, counterexample: on the two-node store with the single edge `A→B`, node
`A` joins `B`'s initial community and the returned partition is keyed by the
surviving community id 1 — not by consecutive integers starting at 0. -/
theorem detectCommunities_not_reindexed :
    ¬ ((detectCommunities exGraphAB).map Prod.fst =
        (List.range (detectCommunities exGraphAB).length).map some) := by decide

theorem foldl_fst_inv {α β γ : Type} (P : α → Prop) (l : List γ) (f : α × β → γ → α × β)
    (hf : ∀ st c, c ∈ l → P st.1 → P (f st c).1) (init : α × β) (h0 : P init.1) :
    P (l.foldl f init).1 := by
  induction l generalizing init with
  | nil => exact h0
  | cons c rest ih =>
    rw [List.foldl_cons]
    exact ih (fun st d hd hP => hf st d (List.mem_cons_of_mem _ hd) hP) (f init c)
      (hf init c (List.mem_cons_self c rest) h0)

theorem mem_dedupFirstSeen {α : Type} [DecidableEq α] {x : α} :
    ∀ {l : List α}, x ∈ dedupFirstSeen l → x ∈ l := by
  intro l
  induction l with
  | nil => simp [dedupFirstSeen]
  | cons y rest ih =>
    intro h
    rw [dedupFirstSeen] at h
    rcases List.mem_cons.mp h with h | h
    · rw [h]; exact List.mem_cons_self y rest
    · exact List.mem_cons_of_mem _ (ih (List.mem_of_mem_filter h))

theorem aset_append_of_not_mem {κ β : Type} [DecidableEq κ] {m : List (κ × β)}
    {k : κ} (v : β) (h : k ∉ m.map Prod.fst) : aset m k v = m ++ [(k, v)] := by
  induction m with
  | nil => rfl
  | cons p rest ih =>
    have hp : ¬ p.1 = k := by
      intro hh
      exact h (by simp [hh])
    rw [aset_cons, if_neg hp, ih (fun hm => h (by simp at hm ⊢; exact Or.inr hm))]
    rfl

theorem aset_key_mem {κ β : Type} [DecidableEq κ] {m : List (κ × β)} {k k' : κ}
    {v : β} (h : k' ∈ (aset m k v).map Prod.fst) : k' ∈ m.map Prod.fst ∨ k' = k := by
  obtain ⟨q, hq, hqe⟩ := List.mem_map.mp h
  rcases mem_aset hq with h' | h'
  · exact Or.inl (hqe ▸ List.mem_map_of_mem _ h')
  · rw [← hqe, h']
    exact Or.inr rfl

theorem commInv_jsGet (g : InteractionGraph) (m : List (String × Option Nat))
    (h : commInv g m) (k : String) (hk : k ∈ g.nodes.map Prod.fst) :
    ∃ j, jsGet m k = some j ∧ j < g.nodes.length := by
  have hs : (alookup m k).isSome := by
    rw [alookup_isSome_iff_mem, h.1]
    exact hk
  obtain ⟨v, hv⟩ := Option.isSome_iff_exists.mp hs
  obtain ⟨j, hj, hjn⟩ := h.2 (k, v) (mem_of_alookup_eq_some hv)
  refine ⟨j, ?_, hjn⟩
  rw [jsGet, hv]
  exact hj

theorem initComm_spec (l : List (String × KeyNode)) :
    ∀ (m0 : List (String × Option Nat)) (c0 : Nat),
      (∀ k ∈ l.map Prod.fst, k ∉ m0.map Prod.fst) → (l.map Prod.fst).Nodup →
      ((l.foldl (fun (st : List (String × Option Nat) × Nat) p =>
          (aset st.1 p.1 (some st.2), st.2 + 1)) (m0, c0)).1.map Prod.fst =
        m0.map Prod.fst ++ l.map Prod.fst) ∧
      (∀ q ∈ (l.foldl (fun (st : List (String × Option Nat) × Nat) p =>
          (aset st.1 p.1 (some st.2), st.2 + 1)) (m0, c0)).1,
        q ∈ m0 ∨ ∃ j, q.2 = some j ∧ j < c0 + l.length) := by
  induction l with
  | nil =>
    intro m0 c0 _ _
    exact ⟨by simp, fun q hq => Or.inl hq⟩
  | cons p rest ih =>
    intro m0 c0 hdisj hnd
    rw [List.foldl_cons]
    have hp_not : p.1 ∉ m0.map Prod.fst := hdisj p.1 (by simp)
    have hstep : aset m0 p.1 (some c0) = m0 ++ [(p.1, some c0)] :=
      aset_append_of_not_mem _ hp_not
    have hnd' : (rest.map Prod.fst).Nodup := by
      rw [List.map_cons] at hnd
      exact hnd.of_cons
    have hdisj' : ∀ k ∈ rest.map Prod.fst, k ∉ (aset m0 p.1 (some c0)).map Prod.fst := by
      intro k hk hmem
      rw [hstep] at hmem
      simp only [List.map_append, List.mem_append, List.map_cons, List.map_nil,
        List.mem_singleton] at hmem
      rcases hmem with hm | hm
      · exact hdisj k (by simp [hk]) hm
      · rw [List.map_cons] at hnd
        rw [hm] at hk
        exact (List.nodup_cons.mp hnd).1 hk
    obtain ⟨hkeys', hvals'⟩ := ih (aset m0 p.1 (some c0)) (c0 + 1) hdisj' hnd'
    constructor
    · rw [hkeys', hstep]
      simp
    · intro q hq
      rcases hvals' q hq with hq' | ⟨j, hj, hjlt⟩
      · rw [hstep] at hq'
        rcases List.mem_append.mp hq' with hm | hm
        · exact Or.inl hm
        · refine Or.inr ⟨c0, ?_, ?_⟩
          · rw [List.mem_singleton.mp hm]
          · simp only [List.length_cons]
            omega
      · refine Or.inr ⟨j, hj, ?_⟩
        simp only [List.length_cons] at hjlt ⊢
        omega

theorem detectCommunities_init_inv (g : InteractionGraph)
    (hnd : (g.nodes.map Prod.fst).Nodup) :
    commInv g ((g.nodes.foldl (fun (st : List (String × Option Nat) × Nat) p =>
      (aset st.1 p.1 (some st.2), st.2 + 1)) ([], 0)).1) := by
  obtain ⟨hkeys, hvals⟩ := initComm_spec g.nodes [] 0 (by simp) hnd
  constructor
  · simpa using hkeys
  · intro q hq
    rcases hvals q hq with h | ⟨j, hj, hjlt⟩
    · simp at h
    · exact ⟨j, hj, by simpa using hjlt⟩

theorem communityPass_inv (g : InteractionGraph)
    (hrows : ∀ row ∈ g.adjacency, ∀ q ∈ row.2, q.1 ∈ g.nodes.map Prod.fst)
    (m : List (String × Option Nat)) (h : commInv g m) :
    commInv g (communityPass g m).1 := by
  unfold communityPass
  refine foldl_fst_inv (fun mm => commInv g mm) _ _ ?_ _ h
  intro st p hp hP
  dsimp only
  split
  · constructor
    · have hpk : p.1 ∈ st.1.map Prod.fst := by
        rw [hP.1]
        exact List.mem_map_of_mem Prod.fst hp
      rw [aset_map_fst_of_mem _ hpk]
      exact hP.1
    · intro q hq
      rcases mem_aset hq with hq' | hq'
      · exact hP.2 q hq'
      · rw [hq']
        refine foldl_fst_inv (fun o => ∃ j, o = some j ∧ j < g.nodes.length) _ _ ?_ _ ?_
        · intro bst tc htc hbst
          dsimp only
          split
          · exact hbst
          · split
            · have hmm := mem_dedupFirstSeen htc
              obtain ⟨q0, hq0mem, hq0eq⟩ := List.mem_map.mp hmm
              cases hrowlk : alookup g.adjacency p.1 with
              | none =>
                rw [hrowlk] at hq0mem
                simp at hq0mem
              | some row0 =>
                rw [hrowlk] at hq0mem
                simp only [Option.getD_some] at hq0mem
                have hq0n : q0.1 ∈ g.nodes.map Prod.fst :=
                  hrows (p.1, row0) (mem_of_alookup_eq_some hrowlk) q0 hq0mem
                obtain ⟨j, hj, hjlt⟩ := commInv_jsGet g st.1 hP q0.1 hq0n
                exact ⟨j, by rw [← hq0eq]; exact hj, hjlt⟩
            · exact hbst
        · exact commInv_jsGet g st.1 hP p.1 (List.mem_map_of_mem Prod.fst hp)
  · exact hP

theorem communityLoop_inv (g : InteractionGraph)
    (hrows : ∀ row ∈ g.adjacency, ∀ q ∈ row.2, q.1 ∈ g.nodes.map Prod.fst) :
    ∀ (fuel : Nat) (m : List (String × Option Nat)),
      commInv g m → commInv g (communityLoop g fuel m) := by
  intro fuel
  induction fuel with
  | zero => exact fun m h => h
  | succ fuel ih =>
    intro m h
    rw [communityLoop]
    split
    · exact ih _ (communityPass_inv g hrows m h)
    · exact communityPass_inv g hrows m h

theorem groupCommunities_key_mem :
    ∀ (l : List (String × Option Nat)) (acc : List (Option Nat × List String))
      (p : Option Nat × List String), p ∈ groupCommunities l acc →
      p.1 ∈ acc.map Prod.fst ∨ p.1 ∈ l.map Prod.snd := by
  intro l
  induction l with
  | nil =>
    intro acc p hp
    exact Or.inl (List.mem_map_of_mem Prod.fst hp)
  | cons e rest ih =>
    intro acc p hp
    cases e with
    | mk nodeId commId =>
      rw [groupCommunities] at hp
      rcases ih _ p hp with h | h
      · rcases aset_key_mem h with h' | h'
        · exact Or.inl h'
        · right
          rw [h', List.map_cons]
          exact List.mem_cons_self _ _
      · right
        rw [List.map_cons]
        exact List.mem_cons_of_mem _ h

/-- C5, amended: on a well-formed store, every key of the partition returned
by `detectCommunities` is a surviving community id `some j` from the initial
numbering, with `j < n`; the keys are not reindexed to consecutive `0..k-1`. -/
theorem detectCommunities_keys_bounded (g : InteractionGraph) (hwf : wfGraph g) :
    ∀ p ∈ detectCommunities g, ∃ j, p.1 = some j ∧ j < g.nodes.length := by
  obtain ⟨hnd, -, hrows, -⟩ := hwf
  intro p hp
  simp only [detectCommunities] at hp
  have hinv := communityLoop_inv g hrows 10 _ (detectCommunities_init_inv g hnd)
  rcases groupCommunities_key_mem _ [] p hp with h | h
  · simp at h
  · obtain ⟨q, hq, hqe⟩ := List.mem_map.mp h
    obtain ⟨j, hj, hjlt⟩ := hinv.2 q hq
    exact ⟨j, by rw [← hqe]; exact hj, hjlt⟩

/-- Witness for the amended C5 on the two-node store with edge `A→B`. -/
theorem detectCommunities_keys_bounded_witness :
    wfGraph exGraphAB ∧
      (∀ p ∈ detectCommunities exGraphAB,
        ∃ j, p.1 = some j ∧ j < exGraphAB.nodes.length) :=
  ⟨by decide, detectCommunities_keys_bounded exGraphAB (by decide)⟩

end ClaimC5

section ClaimC8

theorem iterateSteps_preserve {α : Type} (P : α → Prop) (f : α → α)
    (hf : ∀ x, P x → P (f x)) : ∀ (k : Nat) (x : α), P x → P (iterateSteps f k x)
  | 0, _, h => h
  | k + 1, x, h => iterateSteps_preserve P f hf k (f x) (hf x h)

theorem pageRankStep_map_fst (g : InteractionGraph) (damping : ℚ)
    (pr : List (String × ℚ)) :
    (pageRankStep g damping pr).map Prod.fst = g.nodes.map Prod.fst := by
  unfold pageRankStep
  simp [List.map_map, Function.comp]

theorem calculatePageRank_map_fst (g : InteractionGraph) (damping : ℚ)
    (iterations : Nat) :
    (calculatePageRank g damping iterations).map Prod.fst = g.nodes.map Prod.fst := by
  unfold calculatePageRank
  by_cases h : g.nodes.length = 0
  · rw [if_pos h, List.length_eq_zero.mp h]
    rfl
  · rw [if_neg h]
    refine iterateSteps_preserve (fun x => x.map Prod.fst = g.nodes.map Prod.fst) _
      (fun x _ => pageRankStep_map_fst g damping x) iterations _ ?_
    simp [List.map_map, Function.comp]

theorem eigenvectorStep_map_fst (g : InteractionGraph) (sq : ℚ → ℚ)
    (c : List (String × ℚ)) :
    (eigenvectorStep g sq c).map Prod.fst = g.nodes.map Prod.fst := by
  unfold eigenvectorStep
  simp [List.map_map, Function.comp]

theorem calculateEigenvectorCentrality_map_fst (g : InteractionGraph) (sq : ℚ → ℚ)
    (iterations : Nat) :
    (calculateEigenvectorCentrality g sq iterations).map Prod.fst =
      g.nodes.map Prod.fst := by
  unfold calculateEigenvectorCentrality
  by_cases h : g.nodes.length = 0
  · rw [if_pos h, List.length_eq_zero.mp h]
    rfl
  · rw [if_neg h]
    refine iterateSteps_preserve (fun x => x.map Prod.fst = g.nodes.map Prod.fst) _
      (fun x _ => eigenvectorStep_map_fst g sq x) iterations _ ?_
    simp [List.map_map, Function.comp]

theorem bfs_single (g : InteractionGraph) (v : String) (nd : KeyNode)
    (row : List (String × Nat)) (hnodes : g.nodes = [(v, nd)])
    (hadj : g.adjacency = [(v, row)])
    (hrow : row = [] ∨ ∃ w, row = [(v, w)]) : bfs g v = [(v, 0)] := by
  rcases hrow with rfl | ⟨w, rfl⟩ <;>
    simp [bfs, bfsLoop, hnodes, hadj, alookup, aset]

theorem calculateDiameter_single (g : InteractionGraph) (v : String) (nd : KeyNode)
    (row : List (String × Nat)) (hnodes : g.nodes = [(v, nd)])
    (hadj : g.adjacency = [(v, row)])
    (hrow : row = [] ∨ ∃ w, row = [(v, w)]) : calculateDiameter g = none := by
  have hb := bfs_single g v nd row hnodes hadj hrow
  simp [calculateDiameter, hnodes, hb]

theorem calculateAveragePathLength_single (g : InteractionGraph) (v : String)
    (nd : KeyNode) (row : List (String × Nat)) (hnodes : g.nodes = [(v, nd)])
    (hadj : g.adjacency = [(v, row)])
    (hrow : row = [] ∨ ∃ w, row = [(v, w)]) :
    calculateAveragePathLength g = none := by
  have hb := bfs_single g v nd row hnodes hadj hrow
  simp [calculateAveragePathLength, hnodes, hb]

theorem calculateClosenessCentrality_single (g : InteractionGraph) (v : String)
    (nd : KeyNode) (row : List (String × Nat)) (hnodes : g.nodes = [(v, nd)])
    (hadj : g.adjacency = [(v, row)])
    (hrow : row = [] ∨ ∃ w, row = [(v, w)]) :
    calculateClosenessCentrality g = [(v, 0)] := by
  have hb := bfs_single g v nd row hnodes hadj hrow
  simp [calculateClosenessCentrality, hnodes, hb]

theorem calculateBetweennessCentrality_single (g : InteractionGraph) (v : String)
    (nd : KeyNode) (row : List (String × Nat)) (hnodes : g.nodes = [(v, nd)])
    (hadj : g.adjacency = [(v, row)])
    (hrow : row = [] ∨ ∃ w, row = [(v, w)]) :
    calculateBetweennessCentrality g = [(v, 0)] := by
  rcases hrow with rfl | ⟨w, rfl⟩ <;>
    simp [calculateBetweennessCentrality, brandesVisit, brandesAccum,
      hnodes, hadj, alookup, aset]

theorem calculateClusteringCoefficient_single (g : InteractionGraph) (v : String)
    (nd : KeyNode) (row : List (String × Nat)) (hnodes : g.nodes = [(v, nd)])
    (hadj : g.adjacency = [(v, row)])
    (hrow : row = [] ∨ ∃ w, row = [(v, w)]) :
    calculateClusteringCoefficient g = 0 := by
  rcases hrow with rfl | ⟨w, rfl⟩ <;>
    simp [calculateClusteringCoefficient, hnodes, hadj, alookup, dedupFirstSeen]

/-- C8: on every well-formed store with at most one node, each centrality and
topology function terminates (it is a total function) and returns its defined
degenerate value: empty map for degree centrality, 0 for density, `null` for
diameter and average path length, 0 for the clustering coefficient, the
all-zero map on the vocabulary for betweenness and closeness, and a map keyed
exactly by the vocabulary for PageRank and eigenvector centrality. -/
theorem degenerate_metrics_small_graph (g : InteractionGraph) (sq : ℚ → ℚ)
    (hwf : wfGraph g) (hn : g.nodes.length ≤ 1) :
    calculateDegreeCentrality g = [] ∧
    calculateDensity g = 0 ∧
    calculateDiameter g = none ∧
    calculateAveragePathLength g = none ∧
    calculateClusteringCoefficient g = 0 ∧
    calculateBetweennessCentrality g = g.nodes.map (fun p => (p.1, 0)) ∧
    calculateClosenessCentrality g = g.nodes.map (fun p => (p.1, 0)) ∧
    (calculatePageRank g).map Prod.fst = g.nodes.map Prod.fst ∧
    (calculateEigenvectorCentrality g sq).map Prod.fst = g.nodes.map Prod.fst := by
  obtain ⟨-, hkeys, hrows, hnodup⟩ := hwf
  have hdeg : calculateDegreeCentrality g = [] := by
    simp [calculateDegreeCentrality, hn]
  have hden : calculateDensity g = 0 := by
    simp [calculateDensity, hn]
  have hcases : g.nodes = [] ∨ ∃ v nd, g.nodes = [(v, nd)] := by
    cases h : g.nodes with
    | nil => exact Or.inl rfl
    | cons p l =>
      cases l with
      | nil => exact Or.inr ⟨p.1, p.2, rfl⟩
      | cons q m => rw [h] at hn; simp at hn
  rcases hcases with hnil | ⟨v, nd, hone⟩
  · have hadjnil : g.adjacency = [] := by
      rw [hnil] at hkeys
      exact List.map_eq_nil_iff.mp hkeys
    refine ⟨hdeg, hden, ?_, ?_, ?_, ?_, ?_,
      calculatePageRank_map_fst g _ _, calculateEigenvectorCentrality_map_fst g sq _⟩
    · simp [calculateDiameter, hnil]
    · simp [calculateAveragePathLength, hnil]
    · simp [calculateClusteringCoefficient, hnil]
    · simp [calculateBetweennessCentrality, hnil]
    · simp [calculateClosenessCentrality, hnil]
  · obtain ⟨x, hx⟩ : ∃ x, g.adjacency = [x] := by
      rw [hone] at hkeys
      cases hadj : g.adjacency with
      | nil => rw [hadj] at hkeys; simp at hkeys
      | cons a l =>
        cases l with
        | nil => exact ⟨a, rfl⟩
        | cons b m => rw [hadj] at hkeys; simp at hkeys
    have hx1 : x.1 = v := by
      rw [hone, hx] at hkeys
      simpa using hkeys
    have hadj : g.adjacency = [(v, x.2)] := by
      rw [hx, ← hx1]
    have hrowmem : ∀ q ∈ x.2, q.1 = v := by
      intro q hq
      have := hrows x (by rw [hx]; exact List.mem_singleton_self x) q hq
      rw [hone] at this
      simpa using this
    have hrownodup : (x.2.map Prod.fst).Nodup :=
      hnodup x (by rw [hx]; exact List.mem_singleton_self x)
    have hrowcase : x.2 = [] ∨ ∃ w, x.2 = [(v, w)] := by
      cases hr : x.2 with
      | nil => exact Or.inl rfl
      | cons q rest =>
        have hq : q.1 = v := hrowmem q (by rw [hr]; exact List.mem_cons_self q rest)
        have hrest : rest = [] := by
          cases rest with
          | nil => rfl
          | cons r m =>
            have hrv : r.1 = v :=
              hrowmem r (by rw [hr]; exact List.mem_cons_of_mem _ (List.mem_cons_self r m))
            rw [hr] at hrownodup
            simp [hq, hrv] at hrownodup
        refine Or.inr ⟨q.2, ?_⟩
        rw [hrest, ← hq]
    refine ⟨hdeg, hden,
      calculateDiameter_single g v nd x.2 hone hadj hrowcase,
      calculateAveragePathLength_single g v nd x.2 hone hadj hrowcase, ?_, ?_, ?_,
      calculatePageRank_map_fst g _ _, calculateEigenvectorCentrality_map_fst g sq _⟩
    · exact calculateClusteringCoefficient_single g v nd x.2 hone hadj hrowcase
    · rw [calculateBetweennessCentrality_single g v nd x.2 hone hadj hrowcase, hone]
      rfl
    · rw [calculateClosenessCentrality_single g v nd x.2 hone hadj hrowcase, hone]
      rfl

/-- Witness for C8 on the fresh one-node store. -/
theorem degenerate_metrics_small_graph_witness :
    (wfGraph exGraphA ∧ exGraphA.nodes.length ≤ 1) ∧
    (calculateDegreeCentrality exGraphA = [] ∧
      calculateDensity exGraphA = 0 ∧
      calculateDiameter exGraphA = none ∧
      calculateAveragePathLength exGraphA = none ∧
      calculateClusteringCoefficient exGraphA = 0 ∧
      calculateBetweennessCentrality exGraphA = exGraphA.nodes.map (fun p => (p.1, 0)) ∧
      calculateClosenessCentrality exGraphA = exGraphA.nodes.map (fun p => (p.1, 0)) ∧
      (calculatePageRank exGraphA).map Prod.fst = exGraphA.nodes.map Prod.fst ∧
      (calculateEigenvectorCentrality exGraphA (fun _ => 0)).map Prod.fst =
        exGraphA.nodes.map Prod.fst) :=
  ⟨⟨by decide, by decide⟩,
    degenerate_metrics_small_graph exGraphA (fun _ => 0) (by decide) (by decide)⟩

end ClaimC8

section WellFormedness

/-! `wfGraph`, the hypothesis of the C5/C8/C9 theorems, holds in every state
reachable from construction through `addEdge` and `reset`: the constructor
establishes it and both mutating calls preserve it. -/

theorem aset_map_fst {κ β : Type} [DecidableEq κ] (m : List (κ × β)) (k : κ) (v : β) :
    (aset m k v).map Prod.fst =
      if k ∈ m.map Prod.fst then m.map Prod.fst else m.map Prod.fst ++ [k] := by
  induction m with
  | nil => simp [aset]
  | cons p rest ih =>
    by_cases hp : p.1 = k
    · rw [aset_cons, if_pos hp]
      simp [hp.symm]
    · rw [aset_cons, if_neg hp]
      have hknp : ¬k = p.1 := fun hh => hp hh.symm
      by_cases hm : k ∈ rest.map Prod.fst
      · have hcond : k ∈ (p :: rest).map Prod.fst := by simp [hm]
        rw [if_pos hcond]
        simp only [List.map_cons]
        rw [ih, if_pos hm]
      · have hcond : k ∉ (p :: rest).map Prod.fst := by
          simp only [List.map_cons, List.mem_cons]
          rintro (hh | hh)
          · exact hknp hh
          · exact hm hh
        rw [if_neg hcond]
        simp only [List.map_cons]
        rw [ih, if_neg hm]
        simp

theorem nodup_aset {κ β : Type} [DecidableEq κ] (m : List (κ × β)) (k : κ) (v : β)
    (h : (m.map Prod.fst).Nodup) : ((aset m k v).map Prod.fst).Nodup := by
  rw [aset_map_fst]
  split
  · exact h
  · next hnot =>
    simp only [List.nodup_append, List.nodup_singleton, true_and]
    exact ⟨h, by simpa [List.disjoint_singleton] using hnot⟩

theorem nodup_foldl_aset {α β : Type} (key : α → String) (val : α → β)
    (l : List α) (m₀ : List (String × β)) (h : (m₀.map Prod.fst).Nodup) :
    ((l.foldl (fun m x => aset m (key x) (val x)) m₀).map Prod.fst).Nodup := by
  induction l generalizing m₀ with
  | nil => exact h
  | cons x rest ih =>
    rw [List.foldl_cons]
    exact ih _ (nodup_aset m₀ (key x) (val x) h)

theorem foldl_aset_map_fst_congr {α β γ : Type} (key : α → String)
    (val₁ : α → β) (val₂ : α → γ) (l : List α)
    (m₁ : List (String × β)) (m₂ : List (String × γ))
    (h : m₁.map Prod.fst = m₂.map Prod.fst) :
    (l.foldl (fun m x => aset m (key x) (val₁ x)) m₁).map Prod.fst =
      (l.foldl (fun m x => aset m (key x) (val₂ x)) m₂).map Prod.fst := by
  induction l generalizing m₁ m₂ with
  | nil => exact h
  | cons x rest ih =>
    rw [List.foldl_cons, List.foldl_cons]
    exact ih _ _ (by rw [aset_map_fst, aset_map_fst, h])

theorem foldl_aset_keys_fresh {α β : Type} (key : α → String) (val : α → β)
    (l : List α) (m₀ : List (String × β))
    (hdisj : ∀ k ∈ l.map key, k ∉ m₀.map Prod.fst) (hnd : (l.map key).Nodup) :
    (l.foldl (fun m x => aset m (key x) (val x)) m₀).map Prod.fst =
      m₀.map Prod.fst ++ l.map key := by
  induction l generalizing m₀ with
  | nil => simp
  | cons x rest ih =>
    rw [List.foldl_cons, List.map_cons]
    have hx : key x ∉ m₀.map Prod.fst := hdisj (key x) (by simp)
    have hstep : (aset m₀ (key x) (val x)).map Prod.fst = m₀.map Prod.fst ++ [key x] := by
      rw [aset_map_fst, if_neg hx]
    have hnd' : (rest.map key).Nodup := by
      rw [List.map_cons] at hnd
      exact hnd.of_cons
    have hdisj' : ∀ k ∈ rest.map key, k ∉ (aset m₀ (key x) (val x)).map Prod.fst := by
      intro k hk hmem
      rw [hstep] at hmem
      rcases List.mem_append.mp hmem with hm | hm
      · exact hdisj k (by simp [hk]) hm
      · rw [List.map_cons] at hnd
        rw [List.mem_singleton.mp hm] at hk
        exact (List.nodup_cons.mp hnd).1 hk
    rw [ih _ hdisj' hnd', hstep]
    simp

theorem mem_foldl_aset_const {α β : Type} (key : α → String) (c : β)
    (l : List α) (m₀ : List (String × β)) (h : ∀ p ∈ m₀, p.2 = c) :
    ∀ p ∈ l.foldl (fun m x => aset m (key x) c) m₀, p.2 = c := by
  induction l generalizing m₀ with
  | nil => exact h
  | cons x rest ih =>
    rw [List.foldl_cons]
    refine ih _ ?_
    intro p hp
    rcases mem_aset hp with hp' | hp'
    · exact h p hp'
    · rw [hp']

theorem wfGraph_mkGraph (ns : List KeyNode) : wfGraph (mkGraph ns) := by
  refine ⟨nodup_foldl_aset KeyNode.id (fun node => node) ns [] (by simp),
    foldl_aset_map_fst_congr KeyNode.id (fun _ => []) (fun node => node) ns [] [] rfl,
    ?_, ?_⟩
  · intro row hrow q hq
    have := mem_foldl_aset_const KeyNode.id ([] : List (String × Nat)) ns [] (by simp)
      row hrow
    rw [this] at hq
    simp at hq
  · intro row hrow
    have := mem_foldl_aset_const KeyNode.id ([] : List (String × Nat)) ns [] (by simp)
      row hrow
    rw [this]
    exact List.nodup_nil

theorem wfGraph_addEdge (g : InteractionGraph) (f t : String) (now : Nat)
    (h : wfGraph g) : wfGraph (addEdge g f t now) := by
  obtain ⟨hnd, hkeys, hrows, hinner⟩ := h
  by_cases hv : (alookup g.nodes f).isSome ∧ (alookup g.nodes t).isSome
  · rw [addEdge_valid g f t now hv.1 hv.2]
    have hfk : f ∈ g.adjacency.map Prod.fst := by
      rw [hkeys, ← alookup_isSome_iff_mem]
      exact hv.1
    have htk : t ∈ g.nodes.map Prod.fst := by
      rw [← alookup_isSome_iff_mem]
      exact hv.2
    have hfromAdj : ∀ q ∈ (alookup g.adjacency f).getD [],
        q.1 ∈ g.nodes.map Prod.fst := by
      cases hlk : alookup g.adjacency f with
      | none => simp
      | some row0 =>
        intro q hq
        exact hrows (f, row0) (mem_of_alookup_eq_some hlk) q (by simpa using hq)
    have hfromNodup : (((alookup g.adjacency f).getD []).map Prod.fst).Nodup := by
      cases hlk : alookup g.adjacency f with
      | none => simp
      | some row0 =>
        simpa using hinner (f, row0) (mem_of_alookup_eq_some hlk)
    refine ⟨?_, ?_, ?_, ?_⟩
    · show ((aupdate g.nodes t _).map Prod.fst).Nodup
      rw [aupdate_map_fst]
      exact hnd
    · show (aset g.adjacency f _).map Prod.fst = (aupdate g.nodes t _).map Prod.fst
      rw [aset_map_fst_of_mem _ hfk, aupdate_map_fst]
      exact hkeys
    · intro row hrow q hq
      show q.1 ∈ (aupdate g.nodes t _).map Prod.fst
      rw [aupdate_map_fst]
      rcases mem_aset hrow with hrow' | hrow'
      · exact hrows row hrow' q hq
      · rw [hrow'] at hq
        rcases mem_aset hq with hq' | hq'
        · exact hfromAdj q hq'
        · rw [hq']
          exact htk
    · intro row hrow
      rcases mem_aset hrow with hrow' | hrow'
      · exact hinner row hrow'
      · rw [hrow']
        exact nodup_aset _ t _ hfromNodup
  · rw [addEdge_not_valid g f t now hv]
    exact ⟨hnd, hkeys, hrows, hinner⟩

theorem wfGraph_reset (g : InteractionGraph) (h : wfGraph g) : wfGraph (reset g) := by
  obtain ⟨hnd, -, -, -⟩ := h
  have hkeys' : (reset g).nodes.map Prod.fst = g.nodes.map Prod.fst := by
    show (g.nodes.map _).map Prod.fst = _
    simp [List.map_map, Function.comp]
  have hrows0 : ∀ p ∈ (reset g).adjacency, p.2 = ([] : List (String × Nat)) :=
    mem_foldl_aset_const Prod.fst [] g.nodes [] (by simp)
  refine ⟨by rw [hkeys']; exact hnd, ?_, ?_, ?_⟩
  · show (g.nodes.foldl (fun m p => aset m p.1 []) []).map Prod.fst = _
    rw [hkeys']
    simpa using foldl_aset_keys_fresh Prod.fst (fun _ => ([] : List (String × Nat)))
      g.nodes [] (by simp) hnd
  · intro row hrow q hq
    rw [hrows0 row hrow] at hq
    simp at hq
  · intro row hrow
    rw [hrows0 row hrow]
    exact List.nodup_nil

theorem wfGraph_reachable (ns : List KeyNode) (ops : List GraphOp) :
    wfGraph (applyOps (mkGraph ns) ops) := by
  have key : ∀ (ops' : List GraphOp) (g : InteractionGraph),
      wfGraph g → wfGraph (applyOps g ops') := by
    intro ops'
    induction ops' with
    | nil => exact fun g h => h
    | cons op rest ih =>
      intro g h
      cases op with
      | add f t now => exact ih _ (wfGraph_addEdge g f t now h)
      | doReset => exact ih _ (wfGraph_reset g h)
  exact key ops _ (wfGraph_mkGraph ns)

theorem aerase_cons {κ β : Type} [DecidableEq κ] (p : κ × β) (m : List (κ × β))
    (k : κ) : aerase (p :: m) k = if p.1 = k then m else p :: aerase m k := rfl

theorem aerase_sublist {κ β : Type} [DecidableEq κ] (m : List (κ × β)) (k : κ) :
    List.Sublist (aerase m k) m := by
  induction m with
  | nil => simp [aerase]
  | cons p rest ih =>
    rw [aerase_cons]
    split
    · exact List.sublist_cons_self p rest
    · exact ih.cons₂ p

theorem removeNodeRefs_map_fst (adj : List (String × List (String × Nat)))
    (v : String) : (removeNodeRefs adj v).map Prod.fst = adj.map Prod.fst := by
  unfold removeNodeRefs
  rw [List.map_map]
  refine List.map_congr_left ?_
  intro row _
  by_cases h : row.1 = v <;> simp [h]

theorem removeNodeRefs_wf (g : InteractionGraph)
    (adj : List (String × List (String × Nat))) (v : String)
    (h : wfAdjacencyOf g adj) : wfAdjacencyOf g (removeNodeRefs adj v) := by
  obtain ⟨h1, h2, h3⟩ := h
  refine ⟨by rw [removeNodeRefs_map_fst, h1], ?_, ?_⟩
  · intro row hrow q hq
    obtain ⟨row0, hrow0, hbody⟩ := List.mem_map.mp hrow
    by_cases hk : row0.1 = v
    · rw [if_pos hk] at hbody
      rw [← hbody] at hq
      exact h2 row0 hrow0 q hq
    · rw [if_neg hk] at hbody
      rw [← hbody] at hq
      exact h2 row0 hrow0 q ((aerase_sublist row0.2 v).subset hq)
  · intro row hrow
    obtain ⟨row0, hrow0, hbody⟩ := List.mem_map.mp hrow
    by_cases hk : row0.1 = v
    · rw [if_pos hk] at hbody
      rw [← hbody]
      exact h3 row0 hrow0
    · rw [if_neg hk] at hbody
      rw [← hbody]
      exact ((aerase_sublist row0.2 v).map Prod.fst).nodup (h3 row0 hrow0)

theorem robustnessLoop_wf (g : InteractionGraph) (orig : Nat) :
    ∀ (l : List (String × KeyNode)) (adj : List (String × List (String × Nat))),
      wfAdjacencyOf g adj → wfAdjacencyOf g (robustnessLoop orig l adj).2 := by
  intro l
  induction l with
  | nil => exact fun adj h => h
  | cons p rest ih =>
    intro adj h
    simp only [robustnessLoop]
    exact ih _ (removeNodeRefs_wf g adj p.1 h)

/-- Even the state `calculateRobustness` leaves behind (its mutated adjacency)
is still well-formed: the C9 theorem therefore applies to every reachable
state, metric-computation calls included. -/
theorem wfGraph_calculateRobustness (g : InteractionGraph) (h : wfGraph g) :
    wfGraph (calculateRobustness g).2 := by
  obtain ⟨hnd, hkeys, hrows, hinner⟩ := h
  have hadj := robustnessLoop_wf g (calculateConnectivityForAdjacency g.adjacency)
    g.nodes g.adjacency ⟨hkeys, hrows, hinner⟩
  exact ⟨hnd, hadj.1, hadj.2.1, hadj.2.2⟩

end WellFormedness

end GraphEngine
